import Mathlib

/-!
Shallow embedding of `src/evis/datasets/nmnist.py` (class `NMNIST`).

The decoder `decode_binary_to_npz` reads a file as a `uint8` byte array
(`np.fromfile(bin_f, dtype=np.uint8)`), casts it to `uint32`, and slices it
with numpy stride-5 slicing:

    data = np.uint32(np.fromfile(bin_f, dtype=np.uint8))
    x = data[0::5]
    y = data[1::5]
    remaining_data = data[2::5]
    p = (remaining_data & 128) >> 7
    ts = ((remaining_data & 127) << 16) | (data[3::5] << 8) | (data[4::5])

Byte streams are modelled as `List Nat`; theorems that depend on the `uint8`
provenance of the data carry the hypothesis that every entry is below 256.
All intermediate values of the `uint32` arithmetic are below `2 ^ 23`
for byte-valued inputs, so no wrap-around modulus is observable.
The numpy elementwise `|` on 1-D arrays is embedded with its shape rule
(equal lengths, or one side of length 1 broadcast over the other; any other
pair of shapes raises `ValueError`, embedded as `none`).
-/

namespace Evis

/-- Stride-5 selection starting at the head of a list: the elements at
indices 0, 5, 10, ... of `l`. -/
def everyFifth {α : Type} : List α → List α
  | [] => []
  | [a] => [a]
  | [a, _] => [a]
  | [a, _, _] => [a]
  | [a, _, _, _] => [a]
  | a :: _ :: _ :: _ :: _ :: rest => a :: everyFifth rest

/-- Numpy basic slice `data[k::5]`: every fifth element starting at index `k`. -/
def slice5 {α : Type} (k : Nat) (data : List α) : List α :=
  everyFifth (data.drop k)

/-- Pointwise combination of three lists, truncating at the shortest. -/
def zipWith3 (f : Nat → Nat → Nat → Nat) : List Nat → List Nat → List Nat → List Nat
  | a :: xs, b :: ys, c :: zs => f a b c :: zipWith3 f xs ys zs
  | _, _, _ => []

/-- Numpy elementwise binary operation on two 1-D integer arrays, with the numpy
1-D broadcasting rule: equal lengths operate pointwise; a length-1 array is
broadcast against the other side; any other shape pair raises `ValueError`,
modelled as `none`. -/
def np_broadcast_op (f : Nat → Nat → Nat) (xs ys : List Nat) : Option (List Nat) :=
  if xs.length = ys.length then some (List.zipWith f xs ys)
  else if xs.length = 1 then some (ys.map (fun b => f (xs.headD 0) b))
  else if ys.length = 1 then some (xs.map (fun a => f a (ys.headD 0)))
  else none

/-- The four per-event field arrays produced by one call of
`decode_binary_to_npz` (the contents of the saved `.npz` archive, keyed
`x`, `y`, `p`, `ts`). -/
structure EventArrays where
  x : List Nat
  y : List Nat
  p : List Nat
  ts : List Nat
deriving Repr, DecidableEq

/-- Embedding of `NMNIST.decode_binary_to_npz` (nmnist.py lines 70-77) on the
byte stream read from the binary file. `x`, `y` and `p` are pure stride
slices and an elementwise expression; `ts` combines three slices with two
elementwise `|` operations, which in numpy are subject to the 1-D shape rule
(`np_broadcast_op`). A shape mismatch in either `|` raises, modelled as
`none`; otherwise the four arrays are returned. -/
def decode_binary_to_npz (data : List Nat) : Option EventArrays :=
  let x := slice5 0 data
  let y := slice5 1 data
  let remaining_data := slice5 2 data
  let p := remaining_data.map (fun v => (v &&& 128) >>> 7)
  match np_broadcast_op (fun a b => a ||| b)
      (remaining_data.map (fun v => (v &&& 127) <<< 16))
      ((slice5 3 data).map (fun v => v <<< 8)) with
  | none => none
  | some t1 =>
    match np_broadcast_op (fun a b => a ||| b) t1 (slice5 4 data) with
    | none => none
    | some ts => some { x := x, y := y, p := p, ts := ts }

/-- Reference encoder named by the round-trip property: one 5-byte group per
event, `byte0 = x`, `byte1 = y`, `byte2 = (p <<< 7) ||| (ts >>> 16)`,
`byte3 = (ts >>> 8) &&& 0xFF`, `byte4 = ts &&& 0xFF`. -/
def encode_events : List Nat → List Nat → List Nat → List Nat → List Nat
  | xv :: xs, yv :: ys, pv :: ps, tv :: ts =>
      xv :: yv :: ((pv <<< 7) ||| (tv >>> 16)) :: ((tv >>> 8) &&& 255) :: (tv &&& 255) ::
        encode_events xs ys ps ts
  | _, _, _, _ => []

/-- Outcome of running `NMNIST.__init__`: the `assert split in ("train",
"test"), TypeError` statement raising `AssertionError`, the final
`raise RuntimeError("Dataset not found, you can use download=True to
download it.")`, or a normally constructed object. -/
inductive InitOutcome where
  | assertionError
  | datasetNotFound
  | ok
deriving Repr, DecidableEq

/-- Filesystem operations `__init__` can perform, in program order:
`_check_exist` (an `is_dir` test on `<root>/NMNIST/<Split>`) and the call to
`download_and_extract_archive`. -/
inductive FsOp where
  | checkExist
  | downloadArchive
deriving Repr, DecidableEq

/-- Embedding of `NMNIST.__init__` (nmnist.py lines 36-48). `dirExists`
abstracts whether the dataset directory of the split `<root>/NMNIST/<Split>` is
present when the constructor runs; a successful `download_and_extract_archive`
makes it present. The result pairs the outcome with the ordered list of
filesystem accesses performed. The `assert` runs before any filesystem
access; `self.download()` itself first re-runs `_check_exist` and skips the
archive fetch when the directory already exists; the constructor ends with
the `_check_exist` guard that raises `RuntimeError` when the directory is
still missing. `root` only determines the path strings and does not affect
control flow. -/
def nmnist_init (root : String) (split : String) (download : Bool)
    (dirExists : Bool) : InitOutcome × List FsOp :=
  if ¬ (split = "train" ∨ split = "test") then (InitOutcome.assertionError, [])
  else
    let st :=
      if download then
        if dirExists then (true, [FsOp.checkExist])
        else (true, [FsOp.checkExist, FsOp.downloadArchive])
      else (dirExists, ([] : List FsOp))
    if st.1 then (InitOutcome.ok, st.2 ++ [FsOp.checkExist])
    else (InitOutcome.datasetNotFound, st.2 ++ [FsOp.checkExist])

/-- Abstract filesystem state seen by one iteration of the inner loop of
`NMNIST.decode`: whether the source binary file and the target `.npz` file
exist. -/
structure ConvFS where
  binPresent : Bool
  npzPresent : Bool
deriving Repr, DecidableEq

/-- Embedding of `bin_file.unlink()`: removes the source binary file. -/
def unlink_bin (fs : ConvFS) : ConvFS :=
  { fs with binPresent := false }

/-- Embedding of the per-file body of the loop in `NMNIST.decode`
(nmnist.py lines 103-104):

    self.decode_binary_to_npz(bin_file, target_file)
    bin_file.unlink()

`decodeWrite` is the effect of `self.decode_binary_to_npz(...)` on the
filesystem: it returns the state it leaves behind together with either
normal completion or a raised exception. Python sequencing propagates the
exception, so `unlink` runs only when `decodeWrite` returned normally. -/
def convert_one (decodeWrite : ConvFS → Except Unit Unit × ConvFS)
    (fs : ConvFS) : Except Unit Unit × ConvFS :=
  match decodeWrite fs with
  | (Except.ok _, fs1) => (Except.ok (), unlink_bin fs1)
  | (Except.error e, fs1) => (Except.error e, fs1)

/-- Embedding of `NMNIST.__getitem__` (nmnist.py lines 110-112): the body is
`pass`, so the call returns Python `None` (modelled as `none`) for every
index and every sample type, and never raises. -/
def nmnist_getitem (Sample : Type) (index : Int) : Option Sample :=
  none

/-- Embedding of `NMNIST.__len__` (nmnist.py lines 114-117): the body is
`pass`, so the call returns Python `None` (modelled as `none`) and never
raises. -/
def nmnist_len : Option Nat :=
  none

theorem everyFifth_nil {α : Type} : everyFifth ([] : List α) = [] := by
  rfl

theorem everyFifth_cons {α : Type} (b : α) (rest : List α) :
    everyFifth (b :: rest) = b :: everyFifth (rest.drop 4) := by
  cases rest with
  | nil => rfl
  | cons x1 t1 =>
    cases t1 with
    | nil => rfl
    | cons x2 t2 =>
      cases t2 with
      | nil => rfl
      | cons x3 t3 =>
        cases t3 with
        | nil => rfl
        | cons x4 t4 => rfl

theorem length_everyFifth {α : Type} (l : List α) :
    (everyFifth l).length = (l.length + 4) / 5 := by
  have key : ∀ (n : Nat) (l : List α), l.length ≤ n →
      (everyFifth l).length = (l.length + 4) / 5 := by
    intro n
    induction n with
    | zero =>
      intro l hl
      cases l with
      | nil => simp [everyFifth]
      | cons b rest => simp at hl
    | succ m ih =>
      intro l hl
      cases l with
      | nil => simp [everyFifth]
      | cons b rest =>
        rw [everyFifth_cons]
        simp only [List.length_cons] at hl
        have hrec := ih (rest.drop 4) (by simp only [List.length_drop]; omega)
        simp only [List.length_cons, hrec, List.length_drop]
        omega
  exact key l.length l (Nat.le_refl _)

theorem getElem?_everyFifth {α : Type} (l : List α) (i : Nat) :
    (everyFifth l)[i]? = l[5 * i]? := by
  have key : ∀ (n : Nat) (l : List α) (i : Nat), l.length ≤ n →
      (everyFifth l)[i]? = l[5 * i]? := by
    intro n
    induction n with
    | zero =>
      intro l i hl
      cases l with
      | nil => simp [everyFifth]
      | cons b rest => simp at hl
    | succ m ih =>
      intro l i hl
      cases l with
      | nil => simp [everyFifth]
      | cons b rest =>
        rw [everyFifth_cons]
        simp only [List.length_cons] at hl
        cases i with
        | zero => simp
        | succ j =>
          have hrec := ih (rest.drop 4) j (by simp only [List.length_drop]; omega)
          have h5 : 5 * (j + 1) = (4 + 5 * j) + 1 := by ring
          rw [List.getElem?_cons_succ, hrec, List.getElem?_drop, h5,
            List.getElem?_cons_succ]
  exact key l.length l i (Nat.le_refl _)

theorem length_slice5 {α : Type} (k : Nat) (l : List α) :
    (slice5 k l).length = (l.length - k + 4) / 5 := by
  rw [slice5, length_everyFifth, List.length_drop]

theorem getElem?_slice5 {α : Type} (k : Nat) (l : List α) (i : Nat) :
    (slice5 k l)[i]? = l[k + 5 * i]? := by
  rw [slice5, getElem?_everyFifth, List.getElem?_drop]

theorem zipWith3_nil_left (f : Nat → Nat → Nat → Nat) (ys zs : List Nat) :
    zipWith3 f [] ys zs = [] := by
  cases ys <;> cases zs <;> rfl

theorem zipWith3_nil_mid (f : Nat → Nat → Nat → Nat) (a : Nat) (xs zs : List Nat) :
    zipWith3 f (a :: xs) [] zs = [] := by
  cases zs <;> rfl

theorem zipWith3_nil_right (f : Nat → Nat → Nat → Nat) (a : Nat) (xs : List Nat)
    (b : Nat) (ys : List Nat) : zipWith3 f (a :: xs) (b :: ys) [] = [] := by
  rfl

theorem zipWith3_cons (f : Nat → Nat → Nat → Nat) (a : Nat) (xs : List Nat)
    (b : Nat) (ys : List Nat) (c : Nat) (zs : List Nat) :
    zipWith3 f (a :: xs) (b :: ys) (c :: zs) = f a b c :: zipWith3 f xs ys zs := by
  rfl

theorem length_zipWith3 (f : Nat → Nat → Nat → Nat) :
    ∀ xs ys zs : List Nat,
      (zipWith3 f xs ys zs).length = min (min xs.length ys.length) zs.length := by
  intro xs
  induction xs with
  | nil => intro ys zs; cases ys <;> cases zs <;> simp [zipWith3_nil_left]
  | cons a xs ih =>
    intro ys zs
    cases ys with
    | nil => cases zs <;> simp [zipWith3_nil_mid]
    | cons b ys =>
      cases zs with
      | nil => simp [zipWith3_nil_right]
      | cons c zs =>
        simp only [zipWith3_cons, List.length_cons, ih]
        omega

theorem getElem?_zipWith3_of_some (f : Nat → Nat → Nat → Nat) :
    ∀ (xs ys zs : List Nat) (i a b c : Nat),
      xs[i]? = some a → ys[i]? = some b → zs[i]? = some c →
      (zipWith3 f xs ys zs)[i]? = some (f a b c) := by
  intro xs
  induction xs with
  | nil => intro ys zs i a b c ha hb hc; simp at ha
  | cons v xs ih =>
    intro ys zs i a b c ha hb hc
    cases ys with
    | nil => simp at hb
    | cons w ys =>
      cases zs with
      | nil => simp at hc
      | cons u zs =>
        cases i with
        | zero => simp_all [zipWith3_cons]
        | succ j =>
          simp only [List.getElem?_cons_succ] at ha hb hc
          simpa [zipWith3_cons] using ih ys zs j a b c ha hb hc

theorem np_broadcast_op_of_length_eq (f : Nat → Nat → Nat) (xs ys : List Nat)
    (h : xs.length = ys.length) :
    np_broadcast_op f xs ys = some (List.zipWith f xs ys) := by
  simp [np_broadcast_op, h]

theorem zipWith_zipWith_left (g h : Nat → Nat → Nat) :
    ∀ xs ys zs : List Nat,
      List.zipWith h (List.zipWith g xs ys) zs
        = zipWith3 (fun a b c => h (g a b) c) xs ys zs := by
  intro xs
  induction xs with
  | nil => intro ys zs; cases ys <;> cases zs <;> simp [zipWith3_nil_left]
  | cons a xs ih =>
    intro ys zs
    cases ys with
    | nil => cases zs <;> simp [zipWith3_nil_mid]
    | cons b ys =>
      cases zs with
      | nil => simp [zipWith3_nil_right]
      | cons c zs => simp [zipWith3_cons, ih]

/-- Normal form of the decoder on inputs whose length is congruent to 0, 1 or
2 modulo 5: the three slices feeding `ts` then have equal lengths, the numpy
shape rule is satisfied, and each output array is the evident elementwise
expression over the stride-5 slices. -/
theorem decode_eq_some_of_mod5_le (data : List Nat) (h : data.length % 5 ≤ 2) :
    decode_binary_to_npz data =
      some { x := slice5 0 data
             y := slice5 1 data
             p := (slice5 2 data).map (fun v => (v &&& 128) >>> 7)
             ts := zipWith3 (fun a b c => (((a &&& 127) <<< 16) ||| (b <<< 8)) ||| c)
                      (slice5 2 data) (slice5 3 data) (slice5 4 data) } := by
  have e1 : np_broadcast_op (fun a b => a ||| b)
      ((slice5 2 data).map (fun v => (v &&& 127) <<< 16))
      ((slice5 3 data).map (fun v => v <<< 8))
      = some (List.zipWith (fun a b => a ||| b)
          ((slice5 2 data).map (fun v => (v &&& 127) <<< 16))
          ((slice5 3 data).map (fun v => v <<< 8))) := by
    apply np_broadcast_op_of_length_eq
    simp only [List.length_map, length_slice5]
    omega
  have e2 : np_broadcast_op (fun a b => a ||| b)
      (List.zipWith (fun a b => a ||| b)
        ((slice5 2 data).map (fun v => (v &&& 127) <<< 16))
        ((slice5 3 data).map (fun v => v <<< 8)))
      (slice5 4 data)
      = some (List.zipWith (fun a b => a ||| b)
          (List.zipWith (fun a b => a ||| b)
            ((slice5 2 data).map (fun v => (v &&& 127) <<< 16))
            ((slice5 3 data).map (fun v => v <<< 8)))
          (slice5 4 data)) := by
    apply np_broadcast_op_of_length_eq
    simp only [List.length_zipWith, List.length_map, length_slice5]
    omega
  simp only [decode_binary_to_npz, e1, e2]
  simp only [List.zipWith_map, zipWith_zipWith_left]

theorem getElem?_eq_some_getD (l : List Nat) (i : Nat) (h : i < l.length) :
    l[i]? = some (l.getD i 0) := by
  rw [List.getD_eq_getElem?_getD, List.getElem?_eq_getElem h]
  rfl

/-- Per-index description of every decoder output on inputs of length `5 * n`:
the decoder succeeds, each array has length `n`, and the `i`-th entries are
the stated functions of bytes `5i .. 5i+4`. -/
theorem decode_fields (data : List Nat) (h5 : data.length % 5 = 0) :
    ∃ e, decode_binary_to_npz data = some e
      ∧ e.x.length = data.length / 5
      ∧ e.y.length = data.length / 5
      ∧ e.p.length = data.length / 5
      ∧ e.ts.length = data.length / 5
      ∧ ∀ i, i < data.length / 5 →
          e.x[i]? = some (data.getD (5 * i) 0)
          ∧ e.y[i]? = some (data.getD (5 * i + 1) 0)
          ∧ e.p[i]? = some ((data.getD (5 * i + 2) 0 &&& 128) >>> 7)
          ∧ e.ts[i]? = some ((((data.getD (5 * i + 2) 0 &&& 127) <<< 16)
                ||| (data.getD (5 * i + 3) 0 <<< 8)) ||| data.getD (5 * i + 4) 0) := by
  refine ⟨_, decode_eq_some_of_mod5_le data (by omega), ?_, ?_, ?_, ?_, ?_⟩
  · show (slice5 0 data).length = data.length / 5
    rw [length_slice5]; omega
  · show (slice5 1 data).length = data.length / 5
    rw [length_slice5]; omega
  · show ((slice5 2 data).map (fun v => (v &&& 128) >>> 7)).length = data.length / 5
    rw [List.length_map, length_slice5]; omega
  · show (zipWith3 _ (slice5 2 data) (slice5 3 data) (slice5 4 data)).length
      = data.length / 5
    rw [length_zipWith3]
    simp only [length_slice5]
    omega
  · intro i hi
    have hx : 5 * i < data.length := by omega
    have hy : 5 * i + 1 < data.length := by omega
    have h2 : 5 * i + 2 < data.length := by omega
    have h3 : 5 * i + 3 < data.length := by omega
    have h4 : 5 * i + 4 < data.length := by omega
    have s2 : (slice5 2 data)[i]? = some (data.getD (5 * i + 2) 0) := by
      rw [getElem?_slice5, show 2 + 5 * i = 5 * i + 2 by omega]
      exact getElem?_eq_some_getD data _ h2
    have s3 : (slice5 3 data)[i]? = some (data.getD (5 * i + 3) 0) := by
      rw [getElem?_slice5, show 3 + 5 * i = 5 * i + 3 by omega]
      exact getElem?_eq_some_getD data _ h3
    have s4 : (slice5 4 data)[i]? = some (data.getD (5 * i + 4) 0) := by
      rw [getElem?_slice5, show 4 + 5 * i = 5 * i + 4 by omega]
      exact getElem?_eq_some_getD data _ h4
    refine ⟨?_, ?_, ?_, ?_⟩
    · show (slice5 0 data)[i]? = _
      rw [getElem?_slice5, show 0 + 5 * i = 5 * i by omega]
      exact getElem?_eq_some_getD data _ hx
    · show (slice5 1 data)[i]? = _
      rw [getElem?_slice5, show 1 + 5 * i = 5 * i + 1 by omega]
      exact getElem?_eq_some_getD data _ hy
    · show ((slice5 2 data).map (fun v => (v &&& 128) >>> 7))[i]? = _
      rw [List.getElem?_map, s2]
      rfl
    · exact getElem?_zipWith3_of_some _ _ _ _ _ _ _ _ s2 s3 s4

set_option maxRecDepth 4096 in
theorem pbit_eq_testBit : ∀ b, b < 256 →
    (b &&& 128) >>> 7 = if b.testBit 7 then 1 else 0 := by
  decide

/-- Claim C1: on every byte stream whose length is a multiple of 5, the `i`-th
5-byte group decodes to one event record with `x = byte0`, `y = byte1`,
`p = bit 7 of byte2` (equal to `(byte2 &&& 128) >>> 7`), and
`ts = ((byte2 &&& 0x7F) <<< 16) ||| (byte3 <<< 8) ||| byte4`. -/
theorem decode_group_field_values (data : List Nat) (hb : ∀ b ∈ data, b < 256)
    (h5 : data.length % 5 = 0) (i : Nat) (hi : i < data.length / 5) :
    ∃ e, decode_binary_to_npz data = some e
      ∧ e.x[i]? = some (data.getD (5 * i) 0)
      ∧ e.y[i]? = some (data.getD (5 * i + 1) 0)
      ∧ e.p[i]? = some ((data.getD (5 * i + 2) 0 &&& 128) >>> 7)
      ∧ e.p[i]? = some (if (data.getD (5 * i + 2) 0).testBit 7 then 1 else 0)
      ∧ e.ts[i]? = some ((((data.getD (5 * i + 2) 0 &&& 127) <<< 16)
            ||| (data.getD (5 * i + 3) 0 <<< 8)) ||| data.getD (5 * i + 4) 0) := by
  obtain ⟨e, he, hlx, hly, hlp, hlt, hfields⟩ := decode_fields data h5
  obtain ⟨fx, fy, fp, ft⟩ := hfields i hi
  have hlt2 : 5 * i + 2 < data.length := by omega
  have hmem : data.getD (5 * i + 2) 0 ∈ data := by
    rw [List.getD_eq_getElem?_getD, List.getElem?_eq_getElem hlt2]
    exact List.getElem_mem hlt2
  refine ⟨e, he, fx, fy, fp, ?_, ft⟩
  rw [fp, pbit_eq_testBit _ (hb _ hmem)]

/-- Witness for C1: the group `[10, 20, 0x81, 0x02, 0x03]` decodes to
`x = 10`, `y = 20`, `p = 1`, `ts = 66051`, and a group with `byte2 = 0x7F`
decodes to `p = 0` with the top 7 bits of `ts` equal to `0x7F`. -/
theorem decode_group_field_values_witness :
    (∃ e, decode_binary_to_npz [10, 20, 129, 2, 3] = some e
        ∧ e.x[0]? = some 10 ∧ e.y[0]? = some 20
        ∧ e.p[0]? = some 1 ∧ e.ts[0]? = some 66051)
    ∧ (∃ e, decode_binary_to_npz [10, 20, 127, 255, 255] = some e
        ∧ e.p[0]? = some 0
        ∧ ∃ t, e.ts[0]? = some t ∧ t >>> 16 = 127) := by
  constructor
  · obtain ⟨e, he, fx, fy, fp, fp2, ft⟩ :=
      decode_group_field_values [10, 20, 129, 2, 3] (by decide) (by decide) 0 (by decide)
    exact ⟨e, he, by rw [fx]; decide, by rw [fy]; decide,
      by rw [fp]; decide, by rw [ft]; decide⟩
  · obtain ⟨e, he, fx, fy, fp, fp2, ft⟩ :=
      decode_group_field_values [10, 20, 127, 255, 255] (by decide) (by decide) 0 (by decide)
    exact ⟨e, he, by rw [fp]; decide, ⟨_, ft, by decide⟩⟩

/-- Claim C2: on every byte stream of length `5 * n` the decoder succeeds and
produces exactly `n` values in each of the four arrays, the `i`-th value of
each coming from the `i`-th 5-byte group. -/
theorem decode_lengths_alignment (data : List Nat) (hb : ∀ b ∈ data, b < 256)
    (n : Nat) (hlen : data.length = 5 * n) :
    ∃ e, decode_binary_to_npz data = some e
      ∧ e.x.length = n ∧ e.y.length = n ∧ e.p.length = n ∧ e.ts.length = n
      ∧ ∀ i, i < n →
          e.x[i]? = some (data.getD (5 * i) 0)
          ∧ e.y[i]? = some (data.getD (5 * i + 1) 0)
          ∧ e.p[i]? = some ((data.getD (5 * i + 2) 0 &&& 128) >>> 7)
          ∧ e.ts[i]? = some ((((data.getD (5 * i + 2) 0 &&& 127) <<< 16)
                ||| (data.getD (5 * i + 3) 0 <<< 8)) ||| data.getD (5 * i + 4) 0) := by
  have h5 : data.length % 5 = 0 := by omega
  have hn : data.length / 5 = n := by omega
  obtain ⟨e, he, h1, h2, h3, h4, hf⟩ := decode_fields data h5
  rw [hn] at h1 h2 h3 h4
  exact ⟨e, he, h1, h2, h3, h4, fun i hi => hf i (by omega)⟩

/-- Witness for C2 on the two-event stream `[1, ..., 10]`. -/
theorem decode_lengths_alignment_witness :
    ∃ e, decode_binary_to_npz [1, 2, 3, 4, 5, 6, 7, 8, 9, 10] = some e
      ∧ e.x.length = 2 ∧ e.y.length = 2 ∧ e.p.length = 2 ∧ e.ts.length = 2
      ∧ e.x[1]? = some 6 ∧ e.ts[1]? = some 526602 := by
  obtain ⟨e, he, h1, h2, h3, h4, hf⟩ :=
    decode_lengths_alignment [1, 2, 3, 4, 5, 6, 7, 8, 9, 10] (by decide) 2 (by decide)
  obtain ⟨fx, fy, fp, ft⟩ := hf 1 (by decide)
  exact ⟨e, he, h1, h2, h3, h4, by rw [fx]; decide, by rw [ft]; decide⟩

/-- Claim C7: a 5-byte group passes `byte0` and `byte1` through to `x` and `y`
unmodified for every byte value 0-255 — no range check against the 34x34
sensor resolution — and applies nothing to `byte2` beyond the polarity and
timestamp masks. -/
theorem decode_passthrough_group (b0 b1 b2 b3 b4 : Nat)
    (h0 : b0 < 256) (h1 : b1 < 256) (h2 : b2 < 256) (h3 : b3 < 256)
    (h4 : b4 < 256) :
    decode_binary_to_npz [b0, b1, b2, b3, b4]
      = some { x := [b0], y := [b1], p := [(b2 &&& 128) >>> 7],
               ts := [(((b2 &&& 127) <<< 16) ||| (b3 <<< 8)) ||| b4] } := by
  rw [decode_eq_some_of_mod5_le _ (by simp)]
  rfl

/-- Witness for C7: byte values far above the 34x34 sensor range decode
unmodified and unrejected. -/
theorem decode_passthrough_group_witness :
    decode_binary_to_npz [255, 200, 255, 7, 9]
      = some { x := [255], y := [200], p := [1], ts := [8324873] } := by
  rw [decode_passthrough_group 255 200 255 7 9 (by decide) (by decide)
    (by decide) (by decide) (by decide)]
  decide

theorem mem_of_mem_everyFifth {α : Type} {v : α} {l : List α}
    (h : v ∈ everyFifth l) : v ∈ l := by
  rw [List.mem_iff_getElem?] at h ⊢
  obtain ⟨i, hi⟩ := h
  exact ⟨5 * i, by rw [← getElem?_everyFifth]; exact hi⟩

theorem mem_of_mem_slice5 {α : Type} {v : α} {k : Nat} {l : List α}
    (h : v ∈ slice5 k l) : v ∈ l := by
  rw [List.mem_iff_getElem?] at h ⊢
  obtain ⟨i, hi⟩ := h
  exact ⟨k + 5 * i, by rw [← getElem?_slice5]; exact hi⟩

theorem exists_of_mem_zipWith (f : Nat → Nat → Nat) :
    ∀ (xs ys : List Nat) (v : Nat), v ∈ List.zipWith f xs ys →
      ∃ a b, a ∈ xs ∧ b ∈ ys ∧ v = f a b := by
  intro xs
  induction xs with
  | nil => intro ys v hv; simp at hv
  | cons a xs ih =>
    intro ys v hv
    cases ys with
    | nil => simp at hv
    | cons b ys =>
      rcases List.mem_cons.mp hv with h | h
      · exact ⟨a, b, List.mem_cons_self _ _, List.mem_cons_self _ _, h⟩
      · obtain ⟨a1, b1, ha, hbm, hvv⟩ := ih ys v h
        exact ⟨a1, b1, List.mem_cons_of_mem _ ha, List.mem_cons_of_mem _ hbm, hvv⟩

theorem exists_of_mem_np_broadcast_op (f : Nat → Nat → Nat)
    (xs ys zs : List Nat) (h : np_broadcast_op f xs ys = some zs)
    (v : Nat) (hv : v ∈ zs) : ∃ a b, a ∈ xs ∧ b ∈ ys ∧ v = f a b := by
  unfold np_broadcast_op at h
  split_ifs at h with hEq hX hY
  · cases h
    exact exists_of_mem_zipWith f xs ys v hv
  · cases h
    obtain ⟨b, hbm, hvv⟩ := List.exists_of_mem_map hv
    have hx : xs.headD 0 ∈ xs := by
      cases xs with
      | nil => simp at hX
      | cons a t => exact List.mem_cons_self _ _
    exact ⟨xs.headD 0, b, hx, hbm, hvv.symm⟩
  · cases h
    obtain ⟨a, ham, hvv⟩ := List.exists_of_mem_map hv
    have hy : ys.headD 0 ∈ ys := by
      cases ys with
      | nil => simp at hY
      | cons b t => exact List.mem_cons_self _ _
    exact ⟨a, ys.headD 0, ham, hy, hvv.symm⟩

/-- Claim C8: for every input byte stream and every record the decoder produces,
`p` is 0 or 1, `ts < 2 ^ 23`, and `x` and `y` are below 256. -/
theorem decode_output_bounds (data : List Nat) (hb : ∀ b ∈ data, b < 256)
    (e : EventArrays) (he : decode_binary_to_npz data = some e) :
    (∀ v ∈ e.x, v < 256) ∧ (∀ v ∈ e.y, v < 256)
      ∧ (∀ v ∈ e.p, v = 0 ∨ v = 1) ∧ (∀ v ∈ e.ts, v < 2 ^ 23) := by
  rw [decode_binary_to_npz] at he
  split at he
  · simp at he
  rename_i t1 hm1
  split at he
  · simp at he
  rename_i tsl hm2
  simp only [Option.some_inj] at he
  subst he
  refine ⟨?_, ?_, ?_, ?_⟩
  · intro v hv
    exact hb v (mem_of_mem_slice5 hv)
  · intro v hv
    exact hb v (mem_of_mem_slice5 hv)
  · intro v hv
    obtain ⟨w, hwm, hvv⟩ := List.exists_of_mem_map hv
    have hle : w &&& 128 ≤ 128 := Nat.and_le_right
    rw [← hvv, Nat.shiftRight_eq_div_pow]
    omega
  · intro v hv
    obtain ⟨a, c, ham, hcm, hvv⟩ :=
      exists_of_mem_np_broadcast_op _ t1 (slice5 4 data) tsl hm2 v hv
    have hc : c < 2 ^ 23 := by
      have := hb c (mem_of_mem_slice5 hcm)
      omega
    have ha : a < 2 ^ 23 := by
      obtain ⟨a1, b1, ham1, hbm1, haa⟩ :=
        exists_of_mem_np_broadcast_op _ _ _ t1 hm1 a ham
      obtain ⟨w2, hw2, ha1⟩ := List.exists_of_mem_map ham1
      obtain ⟨w3, hw3, hb1⟩ := List.exists_of_mem_map hbm1
      have hw3d : w3 < 256 := hb w3 (mem_of_mem_slice5 hw3)
      have e1 : a1 < 2 ^ 23 := by
        rw [← ha1, Nat.shiftLeft_eq]
        have : w2 &&& 127 ≤ 127 := Nat.and_le_right
        have : (w2 &&& 127) * 2 ^ 16 ≤ 127 * 2 ^ 16 :=
          Nat.mul_le_mul_right _ this
        omega
      have e2 : b1 < 2 ^ 23 := by
        rw [← hb1, Nat.shiftLeft_eq]
        have : w3 * 2 ^ 8 ≤ 255 * 2 ^ 8 := Nat.mul_le_mul_right _ (by omega)
        omega
      rw [haa]
      exact Nat.or_lt_two_pow e1 e2
    rw [hvv]
    exact Nat.or_lt_two_pow ha hc

/-- Witness for C8 on the stream `[255, 255, 255, 255, 255]`, whose single
record has the extreme values `p = 1`, `ts = 2 ^ 23 - 1`, `x = y = 255`. -/
theorem decode_output_bounds_witness :
    ∃ e, decode_binary_to_npz [255, 255, 255, 255, 255] = some e
      ∧ ((∀ v ∈ e.x, v < 256) ∧ (∀ v ∈ e.y, v < 256)
        ∧ (∀ v ∈ e.p, v = 0 ∨ v = 1) ∧ (∀ v ∈ e.ts, v < 2 ^ 23)) := by
  have he : decode_binary_to_npz [255, 255, 255, 255, 255]
      = some { x := [255], y := [255], p := [1], ts := [8388607] } := by
    decide
  exact ⟨_, he, decode_output_bounds [255, 255, 255, 255, 255] (by decide) _ he⟩

/-- Claim C9: a stream of length `5 n + 1` decodes without error to an `x` array
of length `n + 1` while `y`, `p`, `ts` have length `n`; a stream of length
`5 n + 2` decodes to `x`, `y` of length `n + 1` and `p`, `ts` of length `n`:
misaligned arrays rather than a rejection. -/
theorem decode_misaligned_lengths (n : Nat) (data : List Nat) :
    (data.length = 5 * n + 1 →
      ∃ e, decode_binary_to_npz data = some e
        ∧ e.x.length = n + 1 ∧ e.y.length = n
        ∧ e.p.length = n ∧ e.ts.length = n)
    ∧ (data.length = 5 * n + 2 →
      ∃ e, decode_binary_to_npz data = some e
        ∧ e.x.length = n + 1 ∧ e.y.length = n + 1
        ∧ e.p.length = n ∧ e.ts.length = n) := by
  constructor
  · intro h
    refine ⟨_, decode_eq_some_of_mod5_le data (by omega), ?_, ?_, ?_, ?_⟩
    · show (slice5 0 data).length = n + 1
      rw [length_slice5]; omega
    · show (slice5 1 data).length = n
      rw [length_slice5]; omega
    · show ((slice5 2 data).map _).length = n
      rw [List.length_map, length_slice5]; omega
    · show (zipWith3 _ _ _ _).length = n
      rw [length_zipWith3]
      simp only [length_slice5]
      omega
  · intro h
    refine ⟨_, decode_eq_some_of_mod5_le data (by omega), ?_, ?_, ?_, ?_⟩
    · show (slice5 0 data).length = n + 1
      rw [length_slice5]; omega
    · show (slice5 1 data).length = n + 1
      rw [length_slice5]; omega
    · show ((slice5 2 data).map _).length = n
      rw [List.length_map, length_slice5]; omega
    · show (zipWith3 _ _ _ _).length = n
      rw [length_zipWith3]
      simp only [length_slice5]
      omega

/-- Witness for C9 at `n = 1`: the 6-byte and 7-byte streams decode with
misaligned array lengths. -/
theorem decode_misaligned_lengths_witness :
    (∃ e, decode_binary_to_npz [1, 2, 3, 4, 5, 6] = some e
      ∧ e.x.length = 1 + 1 ∧ e.y.length = 1 ∧ e.p.length = 1 ∧ e.ts.length = 1)
    ∧ (∃ e, decode_binary_to_npz [1, 2, 3, 4, 5, 6, 7] = some e
      ∧ e.x.length = 1 + 1 ∧ e.y.length = 1 + 1
      ∧ e.p.length = 1 ∧ e.ts.length = 1) :=
  ⟨(decode_misaligned_lengths 1 [1, 2, 3, 4, 5, 6]).1 (by decide),
   (decode_misaligned_lengths 1 [1, 2, 3, 4, 5, 6, 7]).2 (by decide)⟩

theorem slice5_zero_cons {α : Type} (b0 b1 b2 b3 b4 : α) (rest : List α) :
    slice5 0 (b0 :: b1 :: b2 :: b3 :: b4 :: rest) = b0 :: slice5 0 rest := by
  rfl

theorem slice5_one_cons {α : Type} (b0 b1 b2 b3 b4 : α) (rest : List α) :
    slice5 1 (b0 :: b1 :: b2 :: b3 :: b4 :: rest) = b1 :: slice5 1 rest := by
  show everyFifth (b1 :: b2 :: b3 :: b4 :: rest) = b1 :: everyFifth (rest.drop 1)
  rw [everyFifth_cons]
  rfl

theorem slice5_two_cons {α : Type} (b0 b1 b2 b3 b4 : α) (rest : List α) :
    slice5 2 (b0 :: b1 :: b2 :: b3 :: b4 :: rest) = b2 :: slice5 2 rest := by
  show everyFifth (b2 :: b3 :: b4 :: rest) = b2 :: everyFifth (rest.drop 2)
  rw [everyFifth_cons]
  rfl

theorem slice5_three_cons {α : Type} (b0 b1 b2 b3 b4 : α) (rest : List α) :
    slice5 3 (b0 :: b1 :: b2 :: b3 :: b4 :: rest) = b3 :: slice5 3 rest := by
  show everyFifth (b3 :: b4 :: rest) = b3 :: everyFifth (rest.drop 3)
  rw [everyFifth_cons]
  rfl

theorem slice5_four_cons {α : Type} (b0 b1 b2 b3 b4 : α) (rest : List α) :
    slice5 4 (b0 :: b1 :: b2 :: b3 :: b4 :: rest) = b4 :: slice5 4 rest := by
  show everyFifth (b4 :: rest) = b4 :: everyFifth (rest.drop 4)
  rw [everyFifth_cons]

theorem encode_events_cons (xv yv pv tv : Nat) (xs ys ps ts : List Nat) :
    encode_events (xv :: xs) (yv :: ys) (pv :: ps) (tv :: ts)
      = xv :: yv :: ((pv <<< 7) ||| (tv >>> 16)) :: ((tv >>> 8) &&& 255)
          :: (tv &&& 255) :: encode_events xs ys ps ts := by
  rfl

set_option maxRecDepth 4096 in
theorem or_split_byte : ∀ b, b < 256 →
    (((b &&& 128) >>> 7) <<< 7) ||| (b &&& 127) = b := by
  decide

theorem and255_eq_mod (v : Nat) : v &&& 255 = v % 256 := by
  have h := Nat.and_pow_two_sub_one_eq_mod v 8
  norm_num at h
  exact h

theorem ts_arith (b2 b3 b4 : Nat) (h3 : b3 < 256) (h4 : b4 < 256) :
    (((b2 &&& 127) <<< 16) ||| (b3 <<< 8)) ||| b4
      = 65536 * (b2 &&& 127) + 256 * b3 + b4 := by
  have e1 : b3 <<< 8 ||| b4 = 256 * b3 + b4 := by
    rw [Nat.shiftLeft_eq, Nat.mul_comm b3 (2 ^ 8),
      ← Nat.mul_add_lt_is_or (show b4 < 2 ^ 8 by omega) b3]
  rw [Nat.or_assoc, e1, Nat.shiftLeft_eq, Nat.mul_comm _ (2 ^ 16),
    ← Nat.mul_add_lt_is_or (show 256 * b3 + b4 < 2 ^ 16 by omega) (b2 &&& 127)]
  generalize b2 &&& 127 = q
  omega

theorem encode_byte2 (b2 b3 b4 : Nat) (h2 : b2 < 256) (h3 : b3 < 256)
    (h4 : b4 < 256) :
    (((b2 &&& 128) >>> 7) <<< 7)
        ||| (((((b2 &&& 127) <<< 16) ||| (b3 <<< 8)) ||| b4) >>> 16) = b2 := by
  have hts : ((((b2 &&& 127) <<< 16) ||| (b3 <<< 8)) ||| b4) >>> 16
      = b2 &&& 127 := by
    rw [ts_arith b2 b3 b4 h3 h4, Nat.shiftRight_eq_div_pow]
    generalize b2 &&& 127 = q
    omega
  rw [hts]
  exact or_split_byte b2 h2

theorem encode_byte3 (b2 b3 b4 : Nat) (h3 : b3 < 256) (h4 : b4 < 256) :
    (((((b2 &&& 127) <<< 16) ||| (b3 <<< 8)) ||| b4) >>> 8) &&& 255 = b3 := by
  rw [ts_arith b2 b3 b4 h3 h4, Nat.shiftRight_eq_div_pow, and255_eq_mod]
  generalize b2 &&& 127 = q
  omega

theorem encode_byte4 (b2 b3 b4 : Nat) (h3 : b3 < 256) (h4 : b4 < 256) :
    ((((b2 &&& 127) <<< 16) ||| (b3 <<< 8)) ||| b4) &&& 255 = b4 := by
  rw [ts_arith b2 b3 b4 h3 h4, and255_eq_mod]
  generalize b2 &&& 127 = q
  omega

/-- Re-encoding the four decoded slices of a stream of length `5 * n`
reproduces the stream byte for byte. -/
theorem encode_decode_slices : ∀ (n : Nat) (data : List Nat),
    data.length = 5 * n → (∀ b ∈ data, b < 256) →
    encode_events (slice5 0 data) (slice5 1 data)
      ((slice5 2 data).map (fun v => (v &&& 128) >>> 7))
      (zipWith3 (fun a b c => (((a &&& 127) <<< 16) ||| (b <<< 8)) ||| c)
        (slice5 2 data) (slice5 3 data) (slice5 4 data)) = data := by
  intro n
  induction n with
  | zero =>
    intro data h hb
    have hnil : data = [] := List.eq_nil_of_length_eq_zero (by omega)
    subst hnil
    rfl
  | succ m ih =>
    intro data h hb
    cases data with
    | nil => simp at h
    | cons b0 t0 =>
    cases t0 with
    | nil => simp at h; omega
    | cons b1 t1 =>
    cases t1 with
    | nil => simp at h; omega
    | cons b2 t2 =>
    cases t2 with
    | nil => simp at h; omega
    | cons b3 t3 =>
    cases t3 with
    | nil => simp at h; omega
    | cons b4 rest =>
    have hr : rest.length = 5 * m := by
      simp only [List.length_cons] at h
      omega
    have hb0 : b0 < 256 := hb b0 (by simp)
    have hb1 : b1 < 256 := hb b1 (by simp)
    have hb2 : b2 < 256 := hb b2 (by simp)
    have hb3 : b3 < 256 := hb b3 (by simp)
    have hb4 : b4 < 256 := hb b4 (by simp)
    have hbr : ∀ b ∈ rest, b < 256 := fun b hbm => hb b (by simp [hbm])
    rw [slice5_zero_cons, slice5_one_cons, slice5_two_cons, slice5_three_cons,
      slice5_four_cons, List.map_cons, zipWith3_cons, encode_events_cons]
    rw [ih rest hr hbr]
    simp only [List.cons.injEq, true_and, and_true]
    exact ⟨encode_byte2 b2 b3 b4 hb2 hb3 hb4, encode_byte3 b2 b3 b4 hb3 hb4,
      encode_byte4 b2 b3 b4 hb3 hb4⟩

/-- Claim C3: on every byte stream whose length is a multiple of 5, re-encoding
the four decoded fields with the reference encoder reproduces the original
byte stream bit for bit — the decoder loses no information on its
precondition domain. -/
theorem decode_encode_roundtrip (data : List Nat) (hb : ∀ b ∈ data, b < 256)
    (h5 : data.length % 5 = 0) :
    ∃ e, decode_binary_to_npz data = some e
      ∧ encode_events e.x e.y e.p e.ts = data := by
  refine ⟨_, decode_eq_some_of_mod5_le data (by omega), ?_⟩
  exact encode_decode_slices (data.length / 5) data (by omega) hb

/-- Witness for C3 on a concrete two-event stream. -/
theorem decode_encode_roundtrip_witness :
    ∃ e, decode_binary_to_npz [10, 20, 129, 2, 3, 255, 0, 127, 255, 255] = some e
      ∧ encode_events e.x e.y e.p e.ts
          = [10, 20, 129, 2, 3, 255, 0, 127, 255, 255] :=
  decode_encode_roundtrip [10, 20, 129, 2, 3, 255, 0, 127, 255, 255]
    (by decide) (by decide)

/-- Claim C4: in the per-file conversion step, the source binary file is unlinked
only after `decode_binary_to_npz` (the decode plus the `.npz` write)
returned normally; when that call raises, the exception propagates and the
source file stays present. `hpreserve` states that the decode/write step
itself never touches the source binary file. -/
theorem convert_one_deletes_only_on_success
    (decodeWrite : ConvFS → Except Unit Unit × ConvFS)
    (hpreserve : ∀ s, ((decodeWrite s).2).binPresent = s.binPresent)
    (fs : ConvFS) (hbin : fs.binPresent = true) :
    ((decodeWrite fs).1 = Except.error () →
        (convert_one decodeWrite fs).1 = Except.error ()
        ∧ ((convert_one decodeWrite fs).2).binPresent = true)
    ∧ ((convert_one decodeWrite fs).1 = Except.ok () →
        ((convert_one decodeWrite fs).2).binPresent = false)
    ∧ (((convert_one decodeWrite fs).2).binPresent = false →
        (decodeWrite fs).1 = Except.ok ()) := by
  have hkeep := hpreserve fs
  rcases hdw : decodeWrite fs with ⟨r, fs1⟩
  rw [hdw] at hkeep
  unfold convert_one
  rw [hdw]
  cases r with
  | ok u =>
    refine ⟨?_, ?_, ?_⟩
    · intro hc
      simp at hc
    · intro _
      rfl
    · intro _
      rfl
  | error eu =>
    refine ⟨?_, ?_, ?_⟩
    · intro _
      refine ⟨rfl, ?_⟩
      show fs1.binPresent = true
      rw [hkeep]
      exact hbin
    · intro hc
      simp at hc
    · intro hc
      rw [hkeep, hbin] at hc
      simp at hc

/-- Witness for C4: a failing decode/write leaves the source file present;
a successful one is followed by the unlink. -/
theorem convert_one_deletes_only_on_success_witness :
    ((convert_one (fun s => (Except.error (), s))
        { binPresent := true, npzPresent := false }).2).binPresent = true
    ∧ ((convert_one (fun s => (Except.ok (), s))
        { binPresent := true, npzPresent := false }).2).binPresent = false := by
  constructor
  · exact ((convert_one_deletes_only_on_success (fun s => (Except.error (), s))
      (fun s => rfl) { binPresent := true, npzPresent := false } rfl).1 rfl).2
  · exact (convert_one_deletes_only_on_success (fun s => (Except.ok (), s))
      (fun s => rfl) { binPresent := true, npzPresent := false } rfl).2.1 rfl

/-- Claim C5: for every split value other than "train" or "test", `__init__`
raises the assertion before performing any filesystem access, whatever the
root, the download flag and the filesystem state. -/
theorem init_invalid_split_fails_fast (root split : String)
    (download dirExists : Bool)
    (h1 : split ≠ "train") (h2 : split ≠ "test") :
    nmnist_init root split download dirExists
      = (InitOutcome.assertionError, []) := by
  unfold nmnist_init
  have hc : ¬ (split = "train" ∨ split = "test") := by tauto
  rw [if_pos hc]

/-- Witness for C5 at the split value "valid". -/
theorem init_invalid_split_fails_fast_witness :
    nmnist_init "root" "valid" true true = (InitOutcome.assertionError, []) :=
  init_invalid_split_fails_fast "root" "valid" true true
    (by decide) (by decide)

/-- Claim C6: for both valid splits, constructing with download disabled while the
dataset directory of the split is missing ends in the "Dataset not found"
`RuntimeError` (telling the caller to pass download=True) rather than
silently succeeding; the only filesystem access is the existence check. -/
theorem init_missing_dataset_not_found (root split : String)
    (h : split = "train" ∨ split = "test") :
    nmnist_init root split false false
      = (InitOutcome.datasetNotFound, [FsOp.checkExist]) := by
  unfold nmnist_init
  rw [if_neg (not_not_intro h)]
  rfl

/-- Witness for C6 at both valid splits. -/
theorem init_missing_dataset_not_found_witness :
    nmnist_init "root" "train" false false
        = (InitOutcome.datasetNotFound, [FsOp.checkExist])
    ∧ nmnist_init "root" "test" false false
        = (InitOutcome.datasetNotFound, [FsOp.checkExist]) :=
  ⟨init_missing_dataset_not_found "root" "train" (Or.inl rfl),
   init_missing_dataset_not_found "root" "test" (Or.inr rfl)⟩

/-- Claim C10: the `__getitem__` and `__len__` stubs return Python `None` for
every sample type and every index; they never raise and never return a
sample or a count. -/
theorem stubs_return_none (Sample : Type) (index : Int) :
    nmnist_getitem Sample index = none ∧ nmnist_len = none :=
  ⟨rfl, rfl⟩

end Evis
